import Mathlib

/-!
Verification of the TFSage repository core: the regulatory-potential (RP)
scoring model (`tfsage/rp_model`) and the peak-synthesis pipeline
(`tfsage/generation`).  Python DataFrame rows are embedded as Lean
structures, genomic coordinates as naturals, scores/weights as rationals
(reals only where the decay kernel forces transcendental arithmetic).
-/

namespace TFSage

/-! ## Interval data model (generation pipeline)

A peak interval on a single chromosome, as read from one BED file.
`bedtools` processes chromosomes independently, so the synthesis pipeline is
embedded per chromosome: an input file is a `List Iv` and the chromosome
name is threaded through as a parameter. -/

/-- Genomic interval `(start, end)` on a fixed chromosome (BED half-open
coordinates).  `end` is a Lean keyword, so the field is named `stop`. -/
structure Iv where
  start : Nat
  stop : Nat
deriving DecidableEq, Repr

/-- Row of the multi-intersect/merge output (`multi_intersect` in
`generation/helpers.py`): an interval plus one 0/1 indicator per input
file (columns `file_0 .. file_{N-1}` of `bedtool_to_dataframe`). -/
structure ERow where
  chrom : String
  start : Nat
  stop : Nat
  inds : List ℚ
deriving DecidableEq, Repr

/-- Row of the synthesis output (`synthesize` in `generation/synthesize.py`):
the merged interval, its indicator columns after the in-place rescale
`2*v - 1` done by `compute_weighted_sum`, and the `weighted_sum` column. -/
structure SynthRow where
  chrom : String
  start : Nat
  stop : Nat
  inds : List ℚ
  weighted_sum : ℚ
deriving DecidableEq, Repr

/-! ## Multi-way intersection and merge (`multi_intersect`, helpers.py 9-24)

The source shells out to `bedtools multiinter` and `bedtools merge`
(through pybedtools), which are external binaries, so their semantics are
modelled from the spec (section 4.4): union of all distinct breakpoints,
elementary intervals with per-file 0/1 cover indicators, then merging of
runs within `merge_distance` combining indicators by maximum. -/

/-- Modelled from the spec: ordered insertion of one breakpoint,
skipping duplicates.  Folding it over all endpoints yields the sorted
union of all distinct breakpoints across the input files. -/
def insertBp (x : Nat) : List Nat → List Nat
  | [] => [x]
  | y :: ys =>
    if x < y then x :: y :: ys
    else if x = y then y :: ys
    else y :: insertBp x ys

/-- Modelled from the spec: the sorted duplicate-free list of the given
coordinates. -/
def sortedDedup (l : List Nat) : List Nat := l.foldr insertBp []

/-- Endpoints (starts and ends) of all intervals of one file, in file
order. -/
def fileEndpoints (f : List Iv) : List Nat :=
  f.flatMap fun iv => [iv.start, iv.stop]

/-- Modelled from the spec: "union of all distinct breakpoints across the
N files", sorted. -/
def breakpoints (files : List (List Iv)) : List Nat :=
  sortedDedup (files.flatMap fileEndpoints)

/-- Consecutive pairs of a coordinate list: the elementary intervals
between adjacent breakpoints. -/
def consecPairs : List Nat → List (Nat × Nat)
  | a :: b :: rest => (a, b) :: consecPairs (b :: rest)
  | _ => []

/-- Does some interval of file `f` cover the elementary interval
`[a, b)`?  For consecutive breakpoints `a, b`, an input interval either
contains `[a, b)` entirely or is disjoint from it, so containment of both
ends is the right test. -/
def coveredBy (f : List Iv) (a b : Nat) : Bool :=
  f.any fun iv => decide (iv.start ≤ a) && decide (b ≤ iv.stop)

/-- Modelled from the spec: the `bedtools multiinter` row for one
elementary interval — the per-file 0/1 cover indicators, with intervals
covered by no file omitted from the output. -/
def elemRow (chrom : String) (files : List (List Iv)) (p : Nat × Nat) :
    Option ERow :=
  if files.any fun f => coveredBy f p.1 p.2 then
    some ⟨chrom, p.1, p.2,
      files.map fun f => if coveredBy f p.1 p.2 then (1 : ℚ) else 0⟩
  else none

/-- Modelled from the spec: `bedtools multiinter` over the input files
(restricted to one chromosome; bedtools processes chromosomes
independently). -/
def multiinter (chrom : String) (files : List (List Iv)) : List ERow :=
  (consecPairs (breakpoints files)).filterMap (elemRow chrom files)

/-- Pointwise maximum of two indicator rows (`bedtools merge -o max` on
the per-file indicator columns). -/
def indsMax (a b : List ℚ) : List ℚ := a.zipWith max b

/-- Modelled from the spec: the merging loop of `bedtools merge -d`.
`cur` is the interval being grown; a following row on the same chromosome
whose start is within `d` of the current end (overlapping, book-ended, or
within the merge distance) is absorbed, combining indicators by maximum. -/
def mergeGo (d : Nat) (cur : ERow) : List ERow → List ERow
  | [] => [cur]
  | r :: rest =>
    if r.chrom = cur.chrom ∧ r.start ≤ cur.stop + d then
      mergeGo d ⟨cur.chrom, cur.start, max cur.stop r.stop,
        indsMax cur.inds r.inds⟩ rest
    else cur :: mergeGo d r rest

/-- Modelled from the spec: `bedtools merge -d merge_distance -o max`
over a sorted row list. -/
def mergeRows (d : Nat) : List ERow → List ERow
  | [] => []
  | r :: rest => mergeGo d r rest

/-- Embeds `multi_intersect` (helpers.py lines 9-24): multi-way
intersection followed by merging with the given distance, the per-file
indicator columns combined by `max`. -/
def multi_intersect (chrom : String) (files : List (List Iv))
    (merge_distance : Nat) : List ERow :=
  mergeRows merge_distance (multiinter chrom files)

/-! ## Weighted aggregation (`compute_weighted_sum`, helpers.py lines 84-117) -/

/-- Embeds `df[file_columns] = 2 * df[file_columns] - 1` (helpers.py line
101): the in-place rescale of the indicator columns from `[0,1]` to
`[-1,1]`, applied to one row. -/
def rescaleInds (inds : List ℚ) : List ℚ :=
  inds.map fun v => 2 * v - 1

/-- Embeds `np.dot` of one row of the indicator columns with the weight
vector (helpers.py line 109). -/
def dotList (a b : List ℚ) : ℚ :=
  (a.zipWith (· * ·) b).sum

/-- Embeds the `weighted_sum` column of `compute_weighted_sum` for one row
whose indicator columns have already been rescaled: plain row sum when
`weights is None` (helpers.py line 105), dot product with the weight
vector otherwise (helpers.py line 109). -/
def supportOf (inds : List ℚ) (weights : Option (List ℚ)) : ℚ :=
  match weights with
  | none => inds.sum
  | some w => dotList inds w

/-- Embeds `compute_weighted_sum` (helpers.py lines 84-117) acting on one
row of the synthesis table: the indicator columns are rescaled in place and
the `weighted_sum` column is appended.  The `weight_i` reference columns
appended in the weighted branch are modelled separately (the weighted
midpoint computation below reads the weight of file `i` directly from the
weight vector, which is exactly the replicated value of column
`weight_i`). -/
def compute_weighted_sum (weights : Option (List ℚ)) (r : ERow) : SynthRow :=
  ⟨r.chrom, r.start, r.stop, rescaleInds r.inds,
    supportOf (rescaleInds r.inds) weights⟩

/-- Embeds `synthesize` (generation/synthesize.py lines 6-37) without
original-peak provenance: multi-intersect and merge the input files, then
rescale the indicator columns and append the `weighted_sum` support
column. -/
def synthesize (chrom : String) (files : List (List Iv))
    (weights : Option (List ℚ)) (merge_distance : Nat) : List SynthRow :=
  (multi_intersect chrom files merge_distance).map (compute_weighted_sum weights)

/-! ## Unweighted standardization (`compute_midpoints`, helpers.py 120-138) -/

/-- Embeds `df.drop_duplicates(["chrom", "start", "end"])`: keep the
first row of each distinct `(chrom, start, end)` key. -/
def dropDupGo (seen : List (String × Nat × Nat)) :
    List SynthRow → List SynthRow
  | [] => []
  | r :: rest =>
    if (r.chrom, r.start, r.stop) ∈ seen then dropDupGo seen rest
    else r :: dropDupGo ((r.chrom, r.start, r.stop) :: seen) rest

/-- Embeds `df.drop_duplicates(["chrom", "start", "end"])` from the
unweighted branch of `compute_midpoints`. -/
def drop_duplicates (rows : List SynthRow) : List SynthRow := dropDupGo [] rows

/-- Embeds the unweighted branch of `compute_midpoints` (helpers.py lines
134-138): drop duplicate `(chrom, start, end)` rows and assign each row
the midpoint column `mean(start, end)`. -/
def compute_midpoints (rows : List SynthRow) : List (SynthRow × ℚ) :=
  (drop_duplicates rows).map fun r => (r, ((r.start : ℚ) + (r.stop : ℚ)) / 2)

/-! ## Weighted standardization (`compute_weighted_midpoints`,
helpers.py lines 141-182) -/

/-- Row of the provenance-carrying synthesis table
(`report_original_peaks = True` in `synthesize`): one merged interval
paired with one overlapping original peak — its coordinates and the index
of its source file (columns `start_original, end_original, idx` of
`bedtool_to_dataframe`). -/
structure ProvRow where
  chrom : String
  start : Nat
  stop : Nat
  start_original : Nat
  stop_original : Nat
  idx : Nat
deriving DecidableEq, Repr

/-- Embeds the per-row assignment
`midpoint = mean(start_original, end_original)` (helpers.py lines
153-155): the original peak's own midpoint. -/
def origMid (r : ProvRow) : ℚ :=
  ((r.start_original : ℚ) + (r.stop_original : ℚ)) / 2

/-- Embeds `df["idx"].unique()` (helpers.py line 151): the distinct
source-file indices occurring in the table, which select the `weight_i`
columns to be melted. -/
def idxValues (rows : List ProvRow) : List Nat :=
  (rows.map fun r => r.idx).dedup

/-- Embeds the melt of the `weight_i` columns followed by the filter
`variable == "weight_" + idx` (helpers.py lines 157-163): each row is
replicated once per melted weight column `u`, carrying that column's
replicated value `weights[u]`, and only the copy whose column index
matches the row's own source index survives the query. -/
def meltedRows (weights : List ℚ) (rows : List ProvRow) :
    List (ProvRow × Nat × ℚ) :=
  (rows.flatMap fun r =>
      (idxValues rows).map fun u => (r, u, weights.getD u 0)).filter
    fun m => decide (m.2.1 = m.1.idx)

/-- Key `(chrom, start, end)` of a merged interval row, the groupby key
of `compute_weighted_midpoints`. -/
def keyOf (r : ProvRow) : String × Nat × Nat := (r.chrom, r.start, r.stop)

/-- Embeds the groupby-aggregate of `compute_weighted_midpoints`
(helpers.py lines 164-175) at one merged-interval key `k`: the sum of
`weighted_terms = midpoint * value` over the group's melted rows, divided
by the sum of the group's weight values. -/
def compute_weighted_midpoints (weights : List ℚ) (rows : List ProvRow)
    (k : String × Nat × Nat) : ℚ :=
  let g := (meltedRows weights rows).filter fun m => decide (keyOf m.1 = k)
  (g.map fun m => origMid m.1 * m.2.2).sum / (g.map fun m => m.2.2).sum

lemma filter_eq_singleton_of_nodup {l : List Nat} (hn : l.Nodup) {a : Nat}
    (ha : a ∈ l) : l.filter (fun x => decide (x = a)) = [a] := by
  induction l with
  | nil => cases ha
  | cons x xs ih =>
    rcases List.mem_cons.mp ha with rfl | h
    · have hx : a ∉ xs := (List.nodup_cons.mp hn).1
      have hnil : xs.filter (fun y => decide (y = a)) = [] := by
        rw [List.filter_eq_nil_iff]
        intro b hb
        simp only [decide_eq_true_eq]
        exact fun hba => hx (hba ▸ hb)
      simp [List.filter_cons, hnil]
    · have hx : x ≠ a := by
        rintro rfl
        exact (List.nodup_cons.mp hn).1 h
      rw [List.filter_cons, if_neg (by simp [hx])]
      exact ih (List.nodup_cons.mp hn).2 h

lemma flatMap_singleton_map {α β : Type} (g : α → β) (l : List α) :
    (l.flatMap fun x => [g x]) = l.map g := by
  induction l with
  | nil => rfl
  | cons x xs ih => simp [List.flatMap_cons, ih]

/-- The melt-and-query pipeline collapses to one surviving melted row per
input row, carrying the weight of the row's own source file. -/
lemma meltedRows_eq_map (weights : List ℚ) (rows : List ProvRow) :
    meltedRows weights rows
      = rows.map fun r => (r, r.idx, weights.getD r.idx 0) := by
  unfold meltedRows
  rw [List.filter_flatMap]
  have hrow : ∀ r ∈ rows,
      (((idxValues rows).map fun u => (r, u, weights.getD u 0)).filter
          fun m => decide (m.2.1 = m.1.idx))
        = [(r, r.idx, weights.getD r.idx 0)] := by
    intro r hr
    rw [List.filter_map]
    have hmem : r.idx ∈ idxValues rows := by
      unfold idxValues
      rw [List.mem_dedup]
      exact List.mem_map.mpr ⟨r, hr, rfl⟩
    have hnd : (idxValues rows).Nodup := List.nodup_dedup _
    have : ((fun m : ProvRow × Nat × ℚ => decide (m.2.1 = m.1.idx)) ∘
        fun u => (r, u, weights.getD u 0)) = fun u => decide (u = r.idx) := by
      funext u
      simp
    rw [this, filter_eq_singleton_of_nodup hnd hmem]
    rfl
  calc (rows.flatMap fun r =>
        (((idxValues rows).map fun u => (r, u, weights.getD u 0)).filter
          fun m => decide (m.2.1 = m.1.idx)))
      = rows.flatMap fun r => [(r, r.idx, weights.getD r.idx 0)] := by
        apply List.flatMap_congr
        intro r hr
        exact hrow r hr
    _ = rows.map fun r => (r, r.idx, weights.getD r.idx 0) :=
        flatMap_singleton_map _ rows

/-- C5: for every synthesis table with provenance and weight columns,
weighted standardization assigns each distinct merged interval the
consensus midpoint `Σ (original_midpoint_i * weight_i) / Σ weight_i`,
summing over the original peaks contributing to that merged interval,
where each contributing peak's midpoint is the mean of its own
`start_original` and `end_original` and its weight is the weight of its
source file. -/
theorem C5_weighted_consensus_midpoint (weights : List ℚ)
    (rows : List ProvRow) (k : String × Nat × Nat)
    (hidx : ∀ r ∈ rows, r.idx < weights.length) :
    compute_weighted_midpoints weights rows k
      = ((rows.filter fun r => decide (keyOf r = k)).map
            fun r => origMid r * weights.getD r.idx 0).sum
        / ((rows.filter fun r => decide (keyOf r = k)).map
            fun r => weights.getD r.idx 0).sum := by
  unfold compute_weighted_midpoints
  rw [meltedRows_eq_map, List.filter_map]
  have hcomp : ((fun m : ProvRow × Nat × ℚ => decide (keyOf m.1 = k)) ∘
      fun r => (r, r.idx, weights.getD r.idx 0))
        = fun r => decide (keyOf r = k) := rfl
  rw [hcomp]
  dsimp only
  rw [List.map_map, List.map_map]
  rfl

/-- Witness for C5: two original peaks `(100, 200)` from file 0 (weight
3) and `(150, 250)` from file 1 (weight 1) contribute to the merged
interval `(chr1, 100, 250)`; the pipeline's consensus midpoint equals the
weighted mean `(150 * 3 + 200 * 1) / 4`. -/
theorem C5_weighted_consensus_midpoint_witness :
    compute_weighted_midpoints [3, 1]
        [⟨"chr1", 100, 250, 100, 200, 0⟩, ⟨"chr1", 100, 250, 150, 250, 1⟩]
        ("chr1", 100, 250)
      = (([(⟨"chr1", 100, 250, 100, 200, 0⟩ : ProvRow),
            ⟨"chr1", 100, 250, 150, 250, 1⟩].filter
              fun r => decide (keyOf r = ("chr1", 100, 250))).map
            fun r => origMid r * ([3, 1] : List ℚ).getD r.idx 0).sum
        / (([(⟨"chr1", 100, 250, 100, 200, 0⟩ : ProvRow),
            ⟨"chr1", 100, 250, 150, 250, 1⟩].filter
              fun r => decide (keyOf r = ("chr1", 100, 250))).map
            fun r => ([3, 1] : List ℚ).getD r.idx 0).sum :=
  C5_weighted_consensus_midpoint [3, 1]
    [⟨"chr1", 100, 250, 100, 200, 0⟩, ⟨"chr1", 100, 250, 150, 250, 1⟩]
    ("chr1", 100, 250) (by decide)

/-! ## Fixed-width re-centering
(`adjust_intervals_to_fixed_width`, helpers.py lines 202-216) -/

/-- Embeds numpy `.astype(int)`: truncation toward zero.  For the
non-negative values produced by the pipeline this coincides with the
floor. -/
def npInt (q : ℚ) : ℤ :=
  if q < 0 then -⌊-q⌋ else ⌊q⌋

/-- Embeds `adjust_intervals_to_fixed_width` (helpers.py lines 202-216) on
one row with midpoint `m`: `half_width = width // 2`,
`start = np.maximum(m - half_width, 0).astype(int)`,
`end = (m + half_width).astype(int)`.  Returns `(start, end)`. -/
def adjust_intervals_to_fixed_width (width : Nat) (m : ℚ) : ℤ × ℤ :=
  (npInt (max (m - ((width / 2 : Nat) : ℚ)) 0),
   npInt (m + ((width / 2 : Nat) : ℚ)))

lemma npInt_of_nonneg {q : ℚ} (h : 0 ≤ q) : npInt q = ⌊q⌋ := by
  unfold npInt
  rw [if_neg (not_lt.mpr h)]

lemma dotList_replicate_one (a : List ℚ) :
    dotList a (List.replicate a.length 1) = a.sum := by
  induction a with
  | nil => rfl
  | cons x xs ih =>
    simp only [dotList, List.length_cons, List.replicate_succ,
      List.zipWith_cons_cons, List.sum_cons, mul_one] at *
    rw [ih]

/-- C4 counterexample: the claim relates the unweighted support and the
uniform-weight-1 support "up to a constant scale factor of N".  At the
concrete input of one consensus row with indicator columns `[1, 1]` over
`N = 2` files, the two supports are both `2`, so neither is `N = 2` times
the other: the claimed scale factor of `N` is wrong (the true factor
is `1`). -/
theorem C4_counterexample :
    ¬ ((compute_weighted_sum none ⟨"chr1", 100, 250, [1, 1]⟩).weighted_sum
          = 2 * (compute_weighted_sum (some [1, 1])
              ⟨"chr1", 100, 250, [1, 1]⟩).weighted_sum
        ∨ (compute_weighted_sum (some [1, 1])
              ⟨"chr1", 100, 250, [1, 1]⟩).weighted_sum
          = 2 * (compute_weighted_sum none
              ⟨"chr1", 100, 250, [1, 1]⟩).weighted_sum) := by
  norm_num [compute_weighted_sum, supportOf, rescaleInds, dotList]

/-- C4 (amended): weighted aggregation with `weights = None` produces
exactly the same support score as weighted aggregation with a uniform
weight vector of value 1 for every input (scale factor 1, not N); in both
cases indicators are first rescaled by `v' = 2v - 1`, the unweighted
support is the plain sum of rescaled indicators, and the weighted support
is their dot product with the weight vector. -/
theorem C4_uniform_weights_equal_unweighted (r : ERow) (w : List ℚ) :
    (compute_weighted_sum (some (List.replicate r.inds.length 1)) r).weighted_sum
      = (compute_weighted_sum none r).weighted_sum
    ∧ (compute_weighted_sum none r).weighted_sum = (rescaleInds r.inds).sum
    ∧ (compute_weighted_sum (some w) r).weighted_sum
      = dotList (rescaleInds r.inds) w := by
  refine ⟨?_, rfl, rfl⟩
  have hlen : r.inds.length = (rescaleInds r.inds).length := by
    simp [rescaleInds]
  simp only [compute_weighted_sum, supportOf, hlen]
  exact dotList_replicate_one (rescaleInds r.inds)

/-- C3 counterexample: for the odd target width `W = 101` and midpoint
`1000` (far from coordinate 0, so outside the claimed exception class),
the re-centered interval has `end - start = 2 * (101 / 2) = 100 ≠ 101`:
the claimed invariant `end - start = W` fails for odd widths because the
code uses the integer half width `width // 2` on both sides. -/
theorem C3_counterexample :
    ((adjust_intervals_to_fixed_width 101 1000).2
        - (adjust_intervals_to_fixed_width 101 1000).1 ≠ 101)
      ∧ ((101 : ℚ) / 2 < 1000) := by
  norm_num [adjust_intervals_to_fixed_width, npInt]

/-- C3 (amended): for every EVEN target width `W` and every non-negative
midpoint `m`, fixed-width re-centering sets
`start = max(floor(m - W/2), 0)` and `end = floor(m + W/2)`, so that every
output interval satisfies `end - start = W`, except those whose midpoint
is within `W/2` of coordinate 0, which have `start = 0` and
`end - start < W`; no output interval has a negative start.  (For odd `W`
the code produces `end - start = 2 * (W // 2) = W - 1`, see the
counterexample.) -/
theorem C3_fixed_width (width : Nat) (m : ℚ) (hm : 0 ≤ m)
    (hW : width % 2 = 0) :
    0 ≤ (adjust_intervals_to_fixed_width width m).1
    ∧ (((width / 2 : Nat) : ℚ) ≤ m →
        (adjust_intervals_to_fixed_width width m).2
          - (adjust_intervals_to_fixed_width width m).1 = width)
    ∧ (m < ((width / 2 : Nat) : ℚ) →
        (adjust_intervals_to_fixed_width width m).1 = 0
        ∧ (adjust_intervals_to_fixed_width width m).2
            - (adjust_intervals_to_fixed_width width m).1 < width) := by
  set h : Nat := width / 2 with hh
  have hwidth : 2 * h = width := Nat.mul_div_cancel' (Nat.dvd_of_mod_eq_zero hW) ▸ rfl
  have hstart : (adjust_intervals_to_fixed_width width m).1
      = npInt (max (m - (h : ℚ)) 0) := rfl
  have hend : (adjust_intervals_to_fixed_width width m).2
      = npInt (m + (h : ℚ)) := rfl
  have hend' : npInt (m + (h : ℚ)) = ⌊m⌋ + (h : ℤ) := by
    rw [npInt_of_nonneg (by positivity), Int.floor_add_nat]
  refine ⟨?_, ?_, ?_⟩
  · rw [hstart, npInt_of_nonneg (le_max_right _ _)]
    exact Int.floor_nonneg.mpr (le_max_right _ _)
  · intro hge
    have hmax : max (m - (h : ℚ)) 0 = m - (h : ℚ) :=
      max_eq_left (by linarith)
    rw [hstart, hend, hend', hmax, npInt_of_nonneg (by linarith),
      Int.floor_sub_nat]
    have : (width : ℤ) = 2 * (h : ℤ) := by exact_mod_cast hwidth.symm
    omega
  · intro hlt
    have hmax : max (m - (h : ℚ)) 0 = 0 := max_eq_right (by linarith)
    have hfl : ⌊m⌋ < (h : ℤ) := by
      have h1 : (⌊m⌋ : ℚ) ≤ m := Int.floor_le m
      exact_mod_cast lt_of_le_of_lt h1 hlt
    have hwz : (width : ℤ) = 2 * (h : ℤ) := by exact_mod_cast hwidth.symm
    constructor
    · rw [hstart, hmax]
      simp [npInt]
    · rw [hstart, hend, hend', hmax]
      have h0 : npInt 0 = 0 := by simp [npInt]
      rw [h0]
      omega

/-- Witness for C3: the amended statement instantiated at the even width
`W = 100` with midpoint `175` (the end-to-end example of the spec). -/
theorem C3_fixed_width_witness :
    ((0 : ℚ) ≤ 175 ∧ 100 % 2 = 0)
    ∧ (0 ≤ (adjust_intervals_to_fixed_width 100 175).1
      ∧ (((100 / 2 : Nat) : ℚ) ≤ 175 →
          (adjust_intervals_to_fixed_width 100 175).2
            - (adjust_intervals_to_fixed_width 100 175).1 = 100)
      ∧ ((175 : ℚ) < ((100 / 2 : Nat) : ℚ) →
          (adjust_intervals_to_fixed_width 100 175).1 = 0
          ∧ (adjust_intervals_to_fixed_width 100 175).2
              - (adjust_intervals_to_fixed_width 100 175).1 < 100)) :=
  ⟨⟨by norm_num, rfl⟩, C3_fixed_width 100 175 (by norm_num) rfl⟩

/-- C6: for the concrete input of two 1-row interval files
`A = (chr1, 100, 200)` and `B = (chr1, 150, 250)` with merge distance 0,
synthesis produces exactly one consensus interval `(chr1, 100, 250)` with
indicators `[1, 1]`; unweighted support equals 2; unweighted
standardization gives midpoint 175; and fixed-width re-centering with
width 100 yields `(chr1, 125, 225)`. -/
theorem C6_end_to_end_example :
    synthesize "chr1" [[⟨100, 200⟩], [⟨150, 250⟩]] none 0
      = [⟨"chr1", 100, 250, [1, 1], 2⟩]
    ∧ compute_midpoints (synthesize "chr1" [[⟨100, 200⟩], [⟨150, 250⟩]] none 0)
      = [(⟨"chr1", 100, 250, [1, 1], 2⟩, 175)]
    ∧ adjust_intervals_to_fixed_width 100 175 = (125, 225) := by
  refine ⟨?_, ?_, ?_⟩ <;>
    norm_num [synthesize, multi_intersect, multiinter, breakpoints,
      fileEndpoints, sortedDedup, insertBp, consecPairs, elemRow, coveredBy,
      mergeRows, mergeGo, indsMax, compute_weighted_sum, supportOf,
      rescaleInds, dotList, compute_midpoints, drop_duplicates, dropDupGo,
      adjust_intervals_to_fixed_width, npInt, List.filterMap_cons,
      List.any_cons, List.any_nil, List.zipWith]

/-! ## RP model (`tfsage/rp_model`)

`lisa.core.genome_tools.Region` carries `(chrom, start, end)` plus an
annotation list; the gene locus set annotates each TSS with its gene
name, read back by `extract_region_names` as `region.annotation[0]`.
The annotation field is called `labels` here. -/

/-- Genomic region of the RP model, after `lisa.core.genome_tools.Region`
(`annotation` list field named `labels`). -/
structure Region where
  chrom : String
  start : Nat
  stop : Nat
  labels : List String := []
deriving DecidableEq, Repr

/-- Embeds `extract_region_names` (common.py lines 21-31):
`region.annotation[0]` for each region of the locus set. -/
def extract_region_names (gls : List Region) : List String :=
  gls.map fun r => r.labels.headI

/-- Embeds `compute_helper` (common.py lines 34-57).  `file_is_empty`
(common.py lines 8-18, byte size zero) holds exactly when the BED file
holds zero intervals, so the guard is modelled as `peaks = []`.  The
dense RP map of the non-empty branch is external library code
(`lisa.core.data_interface.DataInterface._make_basic_rp_map`), abstracted
here as the explicit `rpMap` argument; `rpVector` below is its
spec-modelled instantiation. -/
def compute_helper (rpMap : List Region → List Region → ℝ → List ℝ)
    (gls : List Region) (peaks : List Region) (decay : ℝ) : List ℝ :=
  if peaks = [] then List.replicate gls.length 0
  else rpMap gls peaks decay

/-- Embeds the worker task `process_bed_file` (compute_batch.py lines
24-35) for input file number `i`: read the file (which may fail with an
OS or parse error, modelled by `fs` returning `Except`), then run
`compute_helper` against the worker's broadcast gene locus set. -/
def process_bed_file (rpMap : List Region → List Region → ℝ → List ℝ)
    (fs : Nat → Except String (List Region)) (gls : List Region)
    (decay : ℝ) (i : Nat) : Except String (List ℝ) :=
  (fs i).map fun peaks => compute_helper rpMap gls peaks decay

/-- Embeds the `as_completed` collection loop of `compute_batch`
(compute_batch.py lines 62-68): futures are consumed in completion order
(`order`), each result is stored at its originating index
(`results[index] = future.result()`), and `future.result()` re-raises a
failed task's error, aborting the loop (modelled by the `Except`
short-circuit). -/
def runTasks {α : Type} (task : Nat → Except String α) :
    List Nat → List (Option α) → Except String (List (Option α))
  | [], slots => .ok slots
  | i :: rest, slots =>
    match task i with
    | .error e => .error e
    | .ok v => runTasks task rest (slots.set i (some v))

/-- Embeds `compute_batch` (compute_batch.py lines 38-73).  Input files
are numbered `0 .. n-1`; `fs` maps a file number to its parsed contents
(or a read error); `order` is the non-deterministic task completion
order.  `results = [None] * len(bed_files)` is the slot list;
`np.stack` raises `ValueError: need at least one array to stack` on an
empty result list (documented numpy behavior), modelled by the error
branch; the `np.stack(results).T` DataFrame is modelled as its list of
columns, so entry `i` of the returned list is matrix column `i`. -/
def compute_batch (rpMap : List Region → List Region → ℝ → List ℝ)
    (n : Nat) (fs : Nat → Except String (List Region)) (gls : List Region)
    (decay : ℝ) (order : List Nat) : Except String (List (List ℝ)) :=
  match runTasks (process_bed_file rpMap fs gls decay) order
      (List.replicate n none) with
  | .error e => .error e
  | .ok slots =>
    if n = 0 then .error "need at least one array to stack"
    else .ok (slots.map fun o => o.getD [])

lemma runTasks_ok {α : Type} (task : Nat → Except String α) (v : Nat → α) :
    ∀ (order : List Nat) (slots : List (Option α)),
      (∀ i ∈ order, task i = .ok (v i)) →
      runTasks task order slots
        = .ok (order.foldl (fun s i => s.set i (some (v i))) slots) := by
  intro order
  induction order with
  | nil => intro slots _; rfl
  | cons i rest ih =>
    intro slots hok
    have hi : task i = .ok (v i) := hok i (List.mem_cons_self i rest)
    simp only [runTasks, hi, List.foldl_cons]
    exact ih _ fun j hj => hok j (List.mem_cons_of_mem i hj)

lemma foldl_set_getElem? {α : Type} (v : Nat → α) :
    ∀ (order : List Nat) (slots : List (Option α)) (j : Nat),
      (order.foldl (fun s i => s.set i (some (v i))) slots)[j]?
        = if j ∈ order ∧ j < slots.length then some (some (v j))
          else slots[j]? := by
  intro order
  induction order with
  | nil => intro slots j; simp
  | cons i rest ih =>
    intro slots j
    rw [List.foldl_cons, ih]
    by_cases hrest : j ∈ rest ∧ j < slots.length
    · rw [if_pos (by simpa using hrest),
        if_pos ⟨List.mem_cons_of_mem i hrest.1, hrest.2⟩]
    · rw [if_neg (by simpa using hrest), List.getElem?_set]
      by_cases hij : i = j
      · subst hij
        by_cases hlen : i < slots.length
        · rw [if_pos rfl, if_pos hlen,
            if_pos ⟨List.mem_cons_self i rest, hlen⟩]
        · rw [if_pos rfl, if_neg hlen,
            if_neg (by intro h; exact hlen h.2),
            List.getElem?_eq_none (Nat.le_of_not_lt hlen)]
      · rw [if_neg hij]
        rcases Decidable.em (j ∈ rest) with hjr | hjr
        · have hnl : ¬ j < slots.length := fun hl => hrest ⟨hjr, hl⟩
          rw [if_neg (by intro h; exact hnl h.2)]
        · rw [if_neg (by
            intro h
            rcases List.mem_cons.mp h.1 with h1 | h1
            · exact hij h1.symm
            · exact hjr h1)]

lemma runTasks_perm_ok {α : Type} (task : Nat → Except String α)
    (v : Nat → α) (n : Nat) (order : List Nat)
    (hperm : order.Perm (List.range n))
    (hok : ∀ i < n, task i = .ok (v i)) :
    runTasks task order (List.replicate n none)
      = .ok ((List.range n).map fun i => some (v i)) := by
  have hmem : ∀ i, i ∈ order ↔ i < n := by
    intro i
    rw [hperm.mem_iff, List.mem_range]
  rw [runTasks_ok task v order _ fun i hi => hok i ((hmem i).mp hi)]
  congr 1
  apply List.ext_getElem?
  intro j
  rw [foldl_set_getElem?, List.length_replicate]
  by_cases hj : j < n
  · rw [if_pos ⟨(hmem j).mpr hj, hj⟩, List.getElem?_map,
      List.getElem?_range hj]
    rfl
  · rw [if_neg (fun h => hj h.2), List.getElem?_replicate, if_neg hj,
      List.getElem?_eq_none (by simpa using Nat.le_of_not_lt hj)]

/-- Main correctness of the batch assembly: when every file reads
successfully, `compute_batch` returns, for ANY completion order, the
matrix whose column `i` is `compute_helper` applied to the `i`-th input
file. -/
lemma compute_batch_ok (rpMap : List Region → List Region → ℝ → List ℝ)
    (n : Nat) (fs : Nat → Except String (List Region))
    (content : Nat → List Region) (gls : List Region) (decay : ℝ)
    (order : List Nat) (hperm : order.Perm (List.range n))
    (hfs : ∀ i < n, fs i = .ok (content i)) (hn : n ≠ 0) :
    compute_batch rpMap n fs gls decay order
      = .ok ((List.range n).map fun i =>
          compute_helper rpMap gls (content i) decay) := by
  have htask : ∀ i < n, process_bed_file rpMap fs gls decay i
      = .ok (compute_helper rpMap gls (content i) decay) := by
    intro i hi
    simp [process_bed_file, hfs i hi, Except.map]
  unfold compute_batch
  rw [runTasks_perm_ok _ _ n order hperm htask]
  simp only [if_neg hn, List.map_map]
  rfl

/-- C1: for every list of sample files and every completion order of the
worker tasks (any permutation of the task indices), the matrix returned
by `compute_batch` has its column `i` equal to the RP score vector
computed for the `i`-th input file: column order always equals input file
order, independent of task completion order. -/
theorem C1_batch_column_order
    (rpMap : List Region → List Region → ℝ → List ℝ) (n : Nat)
    (fs : Nat → Except String (List Region)) (content : Nat → List Region)
    (gls : List Region) (decay : ℝ) (order : List Nat)
    (hperm : order.Perm (List.range n))
    (hfs : ∀ i < n, fs i = .ok (content i)) (hn : n ≠ 0) :
    compute_batch rpMap n fs gls decay order
      = .ok ((List.range n).map fun i =>
          compute_helper rpMap gls (content i) decay) :=
  compute_batch_ok rpMap n fs content gls decay order hperm hfs hn

/-- Witness for C1: two files (file 0 empty, file 1 with one peak)
completed in reversed order `[1, 0]` still yield column 0 = file 0's
vector and column 1 = file 1's vector. -/
theorem C1_batch_column_order_witness :
    compute_batch (fun gls _ _ => List.replicate gls.length 1) 2
      (fun i => if i = 0 then .ok [] else .ok [⟨"chr1", 5, 9, ["g"]⟩])
      [⟨"chr1", 0, 3, ["gene1"]⟩] 10000 [1, 0]
      = .ok [[0], [1]] := by
  rw [C1_batch_column_order (fun gls _ _ => List.replicate gls.length 1) 2
    (fun i => if i = 0 then .ok [] else .ok [⟨"chr1", 5, 9, ["g"]⟩])
    (fun i => if i = 0 then [] else [⟨"chr1", 5, 9, ["g"]⟩])
    [⟨"chr1", 0, 3, ["gene1"]⟩] 10000 [1, 0] (by decide)
    (by intro i hi; interval_cases i <;> rfl) (by decide)]
  norm_num [compute_helper, List.range_succ]

/-- C2: for every gene locus set and every peak file that contains zero
intervals, RP computation returns the all-zero vector whose length equals
the number of loci, with no error; this holds both for the single-sample
call (`compute_helper`, hence `compute`, which wraps the same vector in a
Series) and for the corresponding column of a batch result. -/
theorem C2_empty_file_zero_vector
    (rpMap : List Region → List Region → ℝ → List ℝ) (n : Nat)
    (fs : Nat → Except String (List Region)) (content : Nat → List Region)
    (gls : List Region) (decay : ℝ) (order : List Nat) (i0 : Nat)
    (hperm : order.Perm (List.range n))
    (hfs : ∀ i < n, fs i = .ok (content i)) (hi0 : i0 < n)
    (hempty : content i0 = []) :
    compute_helper rpMap gls [] decay = List.replicate gls.length 0
    ∧ compute_batch rpMap n fs gls decay order
        = .ok ((List.range n).map fun i =>
            compute_helper rpMap gls (content i) decay)
    ∧ ((List.range n).map fun i =>
          compute_helper rpMap gls (content i) decay).getD i0 []
        = List.replicate gls.length 0 := by
  have hzero : compute_helper rpMap gls [] decay
      = List.replicate gls.length 0 := by
    simp [compute_helper]
  refine ⟨hzero, compute_batch_ok rpMap n fs content gls decay order hperm
    hfs (by omega), ?_⟩
  rw [List.getD_eq_getElem?_getD, List.getElem?_map, List.getElem?_range hi0]
  simp [hempty, hzero]

/-- Witness for C2: a 2-file batch whose file 0 is empty, completed in
reversed order; the single-sample vector and batch column 0 are both the
zero vector of length 1. -/
theorem C2_empty_file_zero_vector_witness :
    compute_helper (fun gls _ _ => List.replicate gls.length 1)
        [⟨"chr1", 0, 3, ["gene1"]⟩] [] 10000
      = List.replicate 1 0
    ∧ compute_batch (fun gls _ _ => List.replicate gls.length 1) 2
        (fun i => if i = 0 then .ok [] else .ok [⟨"chr1", 5, 9, ["g"]⟩])
        [⟨"chr1", 0, 3, ["gene1"]⟩] 10000 [1, 0]
        = .ok ((List.range 2).map fun i =>
            compute_helper (fun gls _ _ => List.replicate gls.length 1)
              [⟨"chr1", 0, 3, ["gene1"]⟩]
              ((fun j => if j = 0 then [] else [⟨"chr1", 5, 9, ["g"]⟩]) i)
              10000)
    ∧ ((List.range 2).map fun i =>
          compute_helper (fun gls _ _ => List.replicate gls.length 1)
            [⟨"chr1", 0, 3, ["gene1"]⟩]
            ((fun j => if j = 0 then [] else [⟨"chr1", 5, 9, ["g"]⟩]) i)
            10000).getD 0 []
      = List.replicate 1 0 := by
  have h := C2_empty_file_zero_vector
    (fun gls _ _ => List.replicate gls.length 1) 2
    (fun i => if i = 0 then .ok [] else .ok [⟨"chr1", 5, 9, ["g"]⟩])
    (fun j => if j = 0 then [] else [⟨"chr1", 5, 9, ["g"]⟩])
    [⟨"chr1", 0, 3, ["gene1"]⟩] 10000 [1, 0] 0 (by decide)
    (by intro i hi; interval_cases i <;> rfl) (by omega) rfl
  exact h

lemma runTasks_error {α : Type} (task : Nat → Except String α) (i : Nat)
    (e : String) (herr : task i = .error e)
    (hok : ∀ j, j ≠ i → ∃ v, task j = .ok v) :
    ∀ (order : List Nat) (slots : List (Option α)), i ∈ order →
      runTasks task order slots = .error e := by
  intro order
  induction order with
  | nil => intro slots hi; cases hi
  | cons j rest ih =>
    intro slots hi
    by_cases hj : j = i
    · subst hj
      simp [runTasks, herr]
    · obtain ⟨v, hv⟩ := hok j hj
      simp only [runTasks, hv]
      have hirest : i ∈ rest := by
        rcases List.mem_cons.mp hi with h | h
        · exact absurd h.symm hj
        · exact h
      exact ih _ hirest

/-- C8: if any per-sample worker task in `compute_batch` raises an error
(here: reading sample `i` fails with `e` while every other sample is
fine), the whole batch fails with that error before any matrix is
returned: the result is `error e`, never a partial matrix, and the failed
sample is neither retried nor skipped. -/
theorem C8_worker_failure_fatal
    (rpMap : List Region → List Region → ℝ → List ℝ) (n : Nat)
    (fs : Nat → Except String (List Region)) (gls : List Region)
    (decay : ℝ) (order : List Nat) (i : Nat) (e : String)
    (hi : i ∈ order) (herr : fs i = .error e)
    (hok : ∀ j, j ≠ i → ∃ c, fs j = .ok c) :
    compute_batch rpMap n fs gls decay order = .error e := by
  have htask : process_bed_file rpMap fs gls decay i = .error e := by
    simp [process_bed_file, herr, Except.map]
  have htok : ∀ j, j ≠ i →
      ∃ v, process_bed_file rpMap fs gls decay j = .ok v := by
    intro j hj
    obtain ⟨c, hc⟩ := hok j hj
    exact ⟨compute_helper rpMap gls c decay,
      by simp [process_bed_file, hc, Except.map]⟩
  unfold compute_batch
  rw [runTasks_error _ i e htask htok order _ hi]

/-- Witness for C8: a 2-file batch whose file 1 fails to read; the batch
result is exactly that error. -/
theorem C8_worker_failure_fatal_witness :
    compute_batch (fun gls _ _ => List.replicate gls.length 1) 2
      (fun i => if i = 1 then .error "boom" else .ok [])
      [⟨"chr1", 0, 3, ["gene1"]⟩] 10000 [0, 1]
      = .error "boom" :=
  C8_worker_failure_fatal (fun gls _ _ => List.replicate gls.length 1) 2
    (fun i => if i = 1 then .error "boom" else .ok [])
    [⟨"chr1", 0, 3, ["gene1"]⟩] 10000 [0, 1] 1 "boom" (by decide) rfl
    (fun j hj => ⟨[], by simp [hj]⟩)

/-- C10: for the empty list of sample files, `compute_batch` does not
return an empty gene-by-zero-samples matrix: the tasks all "complete"
vacuously and assembling the results fails, because `np.stack` of zero
arrays raises `ValueError: need at least one array to stack`; a
zero-sample batch is not a defined outcome of the public interface. -/
theorem C10_empty_batch_not_defined
    (rpMap : List Region → List Region → ℝ → List ℝ)
    (fs : Nat → Except String (List Region)) (gls : List Region)
    (decay : ℝ) :
    compute_batch rpMap 0 fs gls decay []
      = .error "need at least one array to stack" := rfl

/-! ## Decay kernel (spec-modelled)

The RP kernel itself lives in the external `lisa` library
(`DataInterface._make_basic_rp_map`, called from common.py lines 52-57),
not in this repository, so it is modelled from the spec (section 4.1):
an exponential decay dropping by a fixed fraction (one half) for each
`decay` base-pairs of distance, with contributions outside a bounded
window treated as zero. -/

/-- Modelled from the spec: the decay kernel
`potential(distance, decay) = 2 ^ (-(distance / decay))`, the exponential
decay whose score halves for each `decay` base-pairs of distance
(missing from src/: implemented in `lisa.core.data_interface`). -/
noncomputable def potential (x decay : ℝ) : ℝ :=
  Real.rpow 2 (-(x / decay))

/-- Modelled from the spec: the contribution of a peak at distance `x`
from a locus, zero outside the bounded window of radius `window` around
the locus ("no unbounded summation"). -/
noncomputable def windowedPotential (window x decay : ℝ) : ℝ :=
  if x ≤ window then potential x decay else 0

/-- Midpoint of a region, as a real. -/
noncomputable def midReal (r : Region) : ℝ :=
  ((r.start : ℝ) + (r.stop : ℝ)) / 2

/-- Distance from a locus to a peak midpoint. -/
noncomputable def regionDist (a b : Region) : ℝ := |midReal a - midReal b|

/-- Modelled from the spec (section 4.2): the RP score vector — for each
locus, the sum of `potential(distance_to_peak_midpoint, decay)` over all
peaks within the kernel's window.  This is the spec-modelled
instantiation of the `rpMap` argument of `compute_helper`. -/
noncomputable def rpVector (window : ℝ) (gls peaks : List Region)
    (decay : ℝ) : List ℝ :=
  gls.map fun locus =>
    (peaks.map fun p => windowedPotential window (regionDist locus p) decay).sum

/-- C9: for every decay value `d > 0`, the decay kernel satisfies
`potential 0 d = 1`; for every distance `x ≥ 0` the value lies in
`(0, 1]`; the kernel is strictly decreasing in the distance (`x < y`
gives `potential y d < potential x d`); and the contribution of a peak
beyond the window (`window < x`) is treated as zero. -/
theorem C9_decay_kernel (d x y w : ℝ) (hd : 0 < d) (hx : 0 ≤ x)
    (hxy : x < y) (hw : w < x) :
    potential 0 d = 1
    ∧ 0 < potential x d
    ∧ potential x d ≤ 1
    ∧ potential y d < potential x d
    ∧ windowedPotential w x d = 0 := by
  refine ⟨?_, ?_, ?_, ?_, ?_⟩
  · simp [potential, Real.rpow_zero]
  · exact Real.rpow_pos_of_pos two_pos _
  · exact Real.rpow_le_one_of_one_le_of_nonpos one_le_two
      (neg_nonpos.mpr (div_nonneg hx hd.le))
  · apply (Real.rpow_lt_rpow_left_iff one_lt_two).mpr
    apply neg_lt_neg
    exact (div_lt_div_iff_of_pos_right hd).mpr hxy
  · exact if_neg (not_le.mpr hw)

/-- Witness for C9: the kernel at decay 1, distances 1 and 2, window
radius 0. -/
theorem C9_decay_kernel_witness :
    ((0 : ℝ) < 1 ∧ (0 : ℝ) ≤ 1 ∧ (1 : ℝ) < 2 ∧ (0 : ℝ) < 1)
    ∧ (potential 0 1 = 1
      ∧ 0 < potential 1 1
      ∧ potential 1 1 ≤ 1
      ∧ potential 2 1 < potential 1 1
      ∧ windowedPotential 0 1 1 = 0) :=
  ⟨⟨by norm_num, by norm_num, by norm_num, by norm_num⟩,
    C9_decay_kernel 1 1 2 0 (by norm_num) (by norm_num) (by norm_num)
      (by norm_num)⟩

/-! ## Round trip of a single file through synthesis (claim C7) -/

/-- Input file whose intervals are nonempty (`start < end`), sorted, and
strictly separated: each interval ends strictly before the next one
starts (no overlapping and no book-ended intervals). -/
def WellSeparated (f : List Iv) : Prop :=
  (∀ iv ∈ f, iv.start < iv.stop) ∧ f.Chain' fun a b => a.stop < b.start

instance : DecidablePred WellSeparated := fun f =>
  inferInstanceAs (Decidable ((∀ iv ∈ f, iv.start < iv.stop)
    ∧ f.Chain' fun a b : Iv => a.stop < b.start))

/-- C7 counterexample: a single file with two book-ended intervals
`(100, 200)` and `(200, 300)`.  Multi-intersection splits at the shared
breakpoint and merging with distance 0 joins the book-ended runs back
into ONE interval `(100, 300)`, so synthesis does NOT reproduce the
file's two intervals. -/
theorem C7_counterexample :
    synthesize "chr1" [[⟨100, 200⟩, ⟨200, 300⟩]] none 0
      ≠ [⟨"chr1", 100, 200, [1], 1⟩, ⟨"chr1", 200, 300, [1], 1⟩] := by
  norm_num [synthesize, multi_intersect, multiinter, breakpoints,
    fileEndpoints, sortedDedup, insertBp, consecPairs, elemRow, coveredBy,
    mergeRows, mergeGo, indsMax, compute_weighted_sum, supportOf,
    rescaleInds, dotList, List.filterMap_cons, List.any_cons, List.any_nil,
    List.zipWith]

lemma sortedDedup_eq_self : ∀ {l : List Nat}, l.Chain' (· < ·) →
    sortedDedup l = l := by
  intro l
  induction l with
  | nil => intro _; rfl
  | cons x xs ih =>
    intro h
    have htail : xs.Chain' (· < ·) := h.tail
    show insertBp x (sortedDedup xs) = x :: xs
    rw [ih htail]
    cases xs with
    | nil => rfl
    | cons y ys =>
      have hxy : x < y := (List.chain'_cons.mp h).1
      simp [insertBp, hxy]

lemma wellSeparated_tail {iv : Iv} {rest : List Iv}
    (h : WellSeparated (iv :: rest)) : WellSeparated rest :=
  ⟨fun x hx => h.1 x (List.mem_cons_of_mem iv hx), h.2.tail⟩

lemma fileEndpoints_cons (iv : Iv) (rest : List Iv) :
    fileEndpoints (iv :: rest)
      = iv.start :: iv.stop :: fileEndpoints rest := rfl

lemma wellSeparated_endpoints_chain : ∀ {f : List Iv}, WellSeparated f →
    (fileEndpoints f).Chain' (· < ·) := by
  intro f
  induction f with
  | nil => intro _; exact List.chain'_nil
  | cons iv rest ih =>
    intro h
    rw [fileEndpoints_cons]
    have h1 : iv.start < iv.stop := h.1 iv (List.mem_cons_self iv rest)
    have htail : (fileEndpoints rest).Chain' (· < ·) :=
      ih (wellSeparated_tail h)
    apply List.chain'_cons.mpr
    refine ⟨h1, ?_⟩
    cases rest with
    | nil => simp [fileEndpoints]
    | cons iv2 rest2 =>
      rw [fileEndpoints_cons]
      apply List.chain'_cons.mpr
      refine ⟨(List.chain'_cons.mp h.2).1, ?_⟩
      rw [fileEndpoints_cons] at htail
      exact htail

lemma breakpoints_single {f : List Iv} (h : WellSeparated f) :
    breakpoints [f] = fileEndpoints f := by
  unfold breakpoints
  rw [show ([f].flatMap fileEndpoints) = fileEndpoints f by simp]
  exact sortedDedup_eq_self (wellSeparated_endpoints_chain h)

lemma elemRow_single (c : String) (f : List Iv) (p : Nat × Nat) :
    elemRow c [f] p
      = if coveredBy f p.1 p.2 then some ⟨c, p.1, p.2, [1]⟩ else none := by
  by_cases hc : coveredBy f p.1 p.2 <;> simp [elemRow, hc]

lemma mem_consecPairs_snd : ∀ {l : List Nat} {p : Nat × Nat},
    p ∈ consecPairs l → p.2 ∈ l := by
  intro l
  induction l with
  | nil => intro p hp; cases hp
  | cons a rest ih =>
    intro p hp
    cases rest with
    | nil => cases hp
    | cons b rest2 =>
      rw [show consecPairs (a :: b :: rest2)
          = (a, b) :: consecPairs (b :: rest2) from rfl] at hp
      rcases List.mem_cons.mp hp with rfl | hp2
      · exact List.mem_cons_of_mem a (List.mem_cons_self b rest2)
      · exact List.mem_cons_of_mem a (ih hp2)

lemma start_mem_fileEndpoints {f : List Iv} {iv : Iv} (h : iv ∈ f) :
    iv.start ∈ fileEndpoints f :=
  List.mem_flatMap.mpr ⟨iv, h, by simp⟩

/-- Multi-intersection of a single well-separated file reports exactly
the file's intervals, each with cover indicator `[1]`. -/
lemma multiinter_single (c : String) : ∀ {f : List Iv}, WellSeparated f →
    multiinter c [f] = f.map fun iv => ⟨c, iv.start, iv.stop, [1]⟩ := by
  intro f
  induction f with
  | nil => intro _; rfl
  | cons iv rest ih =>
    intro h
    unfold multiinter
    rw [breakpoints_single h, fileEndpoints_cons]
    have hchain := wellSeparated_endpoints_chain h
    rw [fileEndpoints_cons] at hchain
    have hpw : (iv.start :: iv.stop :: fileEndpoints rest).Pairwise (· < ·) :=
      List.chain'_iff_pairwise.mp hchain
    have hstop_lt : ∀ b ∈ fileEndpoints rest, iv.stop < b :=
      fun b hb => (List.pairwise_cons.mp (List.pairwise_cons.mp hpw).2).1 b hb
    have hcov1 : coveredBy (iv :: rest) iv.start iv.stop = true :=
      List.any_eq_true.mpr ⟨iv, List.mem_cons_self iv rest, by simp⟩
    cases rest with
    | nil =>
      rw [show fileEndpoints [] = [] from rfl,
        show consecPairs [iv.start, iv.stop] = [(iv.start, iv.stop)] from rfl,
        List.filterMap_cons, elemRow_single, if_pos hcov1]
      rfl
    | cons iv2 rest2 =>
      have hsep2 : WellSeparated (iv2 :: rest2) := wellSeparated_tail h
      have hs2 : iv.stop < iv2.start :=
        hstop_lt iv2.start
          (by rw [fileEndpoints_cons]; exact List.mem_cons_self _ _)
      have hcov2 : coveredBy (iv :: iv2 :: rest2) iv.stop iv2.start
          = false := by
        apply List.any_eq_false.mpr
        intro x hx
        rcases List.mem_cons.mp hx with rfl | hx2
        · simp [hs2.not_le]
        · have hxs : x.start ∈ fileEndpoints (iv2 :: rest2) :=
            start_mem_fileEndpoints hx2
          have hxlt : iv.stop < x.start := hstop_lt _ hxs
          simp [hxlt.not_le]
      have hcp : consecPairs
            (iv.start :: iv.stop :: fileEndpoints (iv2 :: rest2))
          = (iv.start, iv.stop) :: (iv.stop, iv2.start)
            :: consecPairs (fileEndpoints (iv2 :: rest2)) := by
        rw [fileEndpoints_cons]
        rfl
      have htaileq : ∀ p ∈ consecPairs (fileEndpoints (iv2 :: rest2)),
          elemRow c [iv :: iv2 :: rest2] p = elemRow c [iv2 :: rest2] p := by
        intro p hp
        have hlt : iv.stop < p.2 := hstop_lt _ (mem_consecPairs_snd hp)
        rw [elemRow_single, elemRow_single]
        have hcov : coveredBy (iv :: iv2 :: rest2) p.1 p.2
            = coveredBy (iv2 :: rest2) p.1 p.2 := by
          show ((decide (iv.start ≤ p.1) && decide (p.2 ≤ iv.stop))
              || coveredBy (iv2 :: rest2) p.1 p.2)
            = coveredBy (iv2 :: rest2) p.1 p.2
          rw [show decide (p.2 ≤ iv.stop) = false by simp [hlt.not_le],
            Bool.and_false, Bool.false_or]
        rw [hcov]
      have ih2 := ih hsep2
      unfold multiinter at ih2
      rw [breakpoints_single hsep2] at ih2
      rw [hcp, List.filterMap_cons, List.filterMap_cons,
        elemRow_single, if_pos hcov1, elemRow_single,
        if_neg (by simp [hcov2])]
      rw [List.filterMap_congr htaileq, ih2]
      rfl

lemma mergeGo_of_chain (d : Nat) : ∀ (rows : List ERow) (cur : ERow),
    List.Chain' (fun a b => a.stop + d < b.start) (cur :: rows) →
    mergeGo d cur rows = cur :: rows := by
  intro rows
  induction rows with
  | nil => intro cur _; rfl
  | cons r rest ih =>
    intro cur h
    have hlt : cur.stop + d < r.start := (List.chain'_cons.mp h).1
    simp only [mergeGo]
    rw [if_neg fun hc => hlt.not_le hc.2, ih r (List.chain'_cons.mp h).2]

lemma mergeRows_of_chain (d : Nat) (rows : List ERow)
    (h : List.Chain' (fun a b => a.stop + d < b.start) rows) :
    mergeRows d rows = rows := by
  cases rows with
  | nil => rfl
  | cons r rest => exact mergeGo_of_chain d rest r h

/-- C7 (amended): for every single input file whose intervals are
nonempty, sorted, and strictly separated (no two intervals overlap or
touch), synthesizing that file alone with merge distance 0 and no weights
reproduces the file's intervals unchanged, each with indicator column
`[1]` (its own rescaled indicator) and support score 1.0.  (Without the
separation proviso the claim fails: overlapping or book-ended intervals
of the single file are merged, see the counterexample.) -/
theorem C7_single_file_round_trip (c : String) (f : List Iv)
    (h : WellSeparated f) :
    synthesize c [f] none 0
      = f.map fun iv => ⟨c, iv.start, iv.stop, [1], 1⟩ := by
  unfold synthesize multi_intersect
  have hchain : List.Chain' (fun a b => a.stop + 0 < b.start)
      (f.map fun iv => (⟨c, iv.start, iv.stop, [1]⟩ : ERow)) := by
    rw [List.chain'_map]
    simpa using h.2
  rw [multiinter_single c h, mergeRows_of_chain 0 _ hchain, List.map_map]
  apply List.map_congr_left
  intro iv _
  show compute_weighted_sum none ⟨c, iv.start, iv.stop, [1]⟩
    = ⟨c, iv.start, iv.stop, [1], 1⟩
  simp only [compute_weighted_sum, rescaleInds, supportOf, List.map_cons,
    List.map_nil, List.sum_cons, List.sum_nil]
  norm_num

/-- Witness for C7: a well-separated two-interval file passes through
synthesis unchanged. -/
theorem C7_single_file_round_trip_witness :
    synthesize "chr1" [[⟨100, 200⟩, ⟨300, 400⟩]] none 0
      = [⟨"chr1", 100, 200, [1], 1⟩, ⟨"chr1", 300, 400, [1], 1⟩] :=
  C7_single_file_round_trip "chr1" [⟨100, 200⟩, ⟨300, 400⟩]
    ⟨by decide, List.chain'_cons.mpr ⟨by decide, List.chain'_singleton _⟩⟩

end TFSage
